import Mathlib

/-!
# Verification of the scrape_cp glossary scraper

A shallow embedding of `src/main.go`.  Go strings are modelled as lists of
runes (`List Char`); `len` on Go strings is modelled as list length, which
agrees with Go's byte length on the ASCII data handled here.  Go maps
(`map[string]string`) are modelled as association lists with unique keys,
where assignment (`m[k] = v`) replaces an existing binding in place or
appends a new one.
-/

/-- A Go string, as a list of runes. -/
abbrev GoStr := List Char

/-- `unicode.IsSpace`: Unicode white space.  The full set of White_Space
code points, as in Go's `unicode` tables. -/
def goIsSpace (c : Char) : Bool :=
  let n := c.toNat
  (0x09 ≤ n && n ≤ 0x0D) || n == 0x20 || n == 0x85 || n == 0xA0 ||
  n == 0x1680 || (0x2000 ≤ n && n ≤ 0x200A) || n == 0x2028 || n == 0x2029 ||
  n == 0x202F || n == 0x205F || n == 0x3000

/-- `unicode.IsPrint`.  Exact for the Latin-1 range (Go: printable
categories L, M, N, P, S plus ASCII space; soft hyphen 0xAD excluded).
For runes ≥ 0x100 Go consults its category tables; those runes are
modelled as printable (the common case; no theorem below depends on a
rune ≥ 0x100). -/
def goIsPrint (c : Char) : Bool :=
  let n := c.toNat
  if n < 0x100 then
    (0x20 ≤ n && n ≤ 0x7E) || (0xA1 ≤ n && n ≤ 0xFF && n ≠ 0xAD)
  else
    true

/-- `unicode.ToLower` on one rune, modelled on the ASCII range
('A'..'Z' map to 'a'..'z'); runes outside it are left unchanged
(Go additionally lowers non-ASCII cased letters, which the data and
theorems here do not use). -/
def lowerRune (c : Char) : Char :=
  if 0x41 ≤ c.toNat && c.toNat ≤ 0x5A then Char.ofNat (c.toNat + 0x20) else c

/-- `strings.ToLower`. -/
def toLowerGo (s : GoStr) : GoStr := s.map lowerRune

/-- `strings.Fields`: the maximal runs of non-white-space runes, in order,
empty runs omitted.  Defined by peeking at the next rune so that the
recursion is structural. -/
def fields : GoStr → List GoStr
  | [] => []
  | c :: t =>
    if goIsSpace c then fields t
    else
      match t, fields t with
      | [], _ => [[c]]
      | c2 :: _, r =>
        if goIsSpace c2 then [c] :: r
        else
          match r with
          | [] => [[c]]   -- unreachable: fields of a non-space-headed list is nonempty
          | w :: ws => (c :: w) :: ws

/-- `strings.Join _ " "`. -/
def joinSp : List GoStr → GoStr
  | [] => []
  | [w] => w
  | w :: ws => w ++ ' ' :: joinSp ws

/-- `cleanText` (main.go:56-64): collapse white space runs to single
spaces via `Fields`/`Join`, then drop every non-printable rune via
`strings.Map`. -/
def cleanText (s : GoStr) : GoStr :=
  (joinSp (fields s)).filter goIsPrint

/-- `strings.TrimSpace`. -/
def trimSpace (s : GoStr) : GoStr :=
  ((s.dropWhile goIsSpace).reverse.dropWhile goIsSpace).reverse

/-- Is `pat` a prefix of the second argument? (`strings.HasPrefix`). -/
def prefixOfGo : GoStr → GoStr → Bool
  | [], _ => true
  | _ :: _, [] => false
  | a :: p, b :: s => a == b && prefixOfGo p s

/-- `strings.Contains s sub`. -/
def containsGo : GoStr → GoStr → Bool
  | [], sub => sub.isEmpty
  | c :: t, sub => prefixOfGo sub (c :: t) || containsGo t sub

/-- The prefix of `s` before the first occurrence of `pat`, or all of `s`
when `pat` does not occur: `s[:strings.Index(s, pat)]` with the
`Index = -1` case folded in (also `strings.Split(s, pat)[0]`). -/
def cutAt (pat : GoStr) : GoStr → GoStr
  | [] => []
  | c :: t => if prefixOfGo pat (c :: t) then [] else c :: cutAt pat t

/-- `termForComparison` (main.go:71-74): the term truncated at the first
`" ("`, if any. -/
def termForComparison (term : GoStr) : GoStr := cutAt [' ', '('] term

/-- `isValidTerm` (main.go:66-82). -/
def isValidTerm (term definition : GoStr) : Bool :=
  if term.length < 2 || definition.length < 10 then false
  else
    if containsGo (toLowerGo definition) (toLowerGo (termForComparison term)) &&
        definition.length < (termForComparison term).length + 20 then false
    else true

/-- A Go `map[string]string`: an association list with unique keys. -/
abbrev StrMap := List (GoStr × GoStr)

/-- Map lookup (`m[k]` with the `, ok` form). -/
def lookupS : StrMap → GoStr → Option GoStr
  | [], _ => none
  | p :: rest, k => if p.1 = k then some p.2 else lookupS rest k

/-- Map assignment `m[k] = v`: replace the binding in place, or append. -/
def setKey : StrMap → GoStr → GoStr → StrMap
  | [], t, d => [(t, d)]
  | p :: rest, t, d => if p.1 = t then (t, d) :: rest else p :: setKey rest t d

/-- One iteration of the merge loop in `scrapeURL` (main.go:174-179):
insert when absent, replace only when the new definition is strictly
longer. -/
def mergePairS (g : StrMap) (t d : GoStr) : StrMap :=
  match lookupS g t with
  | none => setKey g t d
  | some existing => if existing.length < d.length then setKey g t d else g

/-- The merge loop in `scrapeURL` (main.go:173-180): fold `mergePairS`
over a source's result map. -/
def mergeInto (g : StrMap) (ps : StrMap) : StrMap :=
  ps.foldl (fun acc p => mergePairS acc p.1 p.2) g

/-- Two stores represent the same Glossary (same key-value mapping). -/
def glossaryEquiv (a b : StrMap) : Prop := ∀ k, lookupS a k = lookupS b k

/-- A child element of a `dl.glossary` node, as seen by
`scrapeWikipediaTerms`: a `dt` heading, a `dd` body (each carrying its
text content), or some other element. -/
inductive DlChild where
  | dt (raw : GoStr)
  | dd (raw : GoStr)
  | other
deriving DecidableEq

/-- Term processing in the `dt` branch (main.go:93-95): clean, cut at
the first `'['`, trim. -/
def wikiCleanTerm (raw : GoStr) : GoStr :=
  trimSpace (cutAt ['['] (cleanText raw))

/-- Definition processing in the `dd` branch (main.go:97-107): clean,
delete every `'['` and `']'` rune (`strings.Map`), split at the first
`'['` (main.go:106, kept for faithfulness), trim. -/
def wikiCleanDef (raw : GoStr) : GoStr :=
  trimSpace (cutAt ['['] ((cleanText raw).filter (fun c => !(c == '[' || c == ']'))))

/-- One child step of the inner `Each` of `scrapeWikipediaTerms`
(main.go:91-113); the state is (result map, currentTerm). -/
def wikiStep (st : StrMap × GoStr) (ch : DlChild) : StrMap × GoStr :=
  match ch with
  | .dt raw => (st.1, wikiCleanTerm raw)
  | .dd raw =>
    if st.2.isEmpty then st
    else if isValidTerm st.2 (wikiCleanDef raw) then
      (setKey st.1 st.2 (wikiCleanDef raw), st.2)
    else st
  | .other => st

/-- `scrapeWikipediaTerms` (main.go:85-117): a document is the list of
`dl.glossary` nodes, each the list of its children; `currentTerm` is
reset to `""` per list. -/
def scrapeWikipediaTerms (doc : List (List DlChild)) : StrMap :=
  doc.foldl (fun m dl => (dl.foldl wikiStep (m, [])).1) []

/-- A `p` block as seen by `scrapeCourseraTerms`: the text of its
`strong` child when one exists, and the text of its next sibling when
one exists. -/
structure PBlock where
  strongText : Option GoStr
  nextText : Option GoStr
deriving DecidableEq

/-- One `p` step of `scrapeCourseraTerms` (main.go:122-132). -/
def courseraStep (m : StrMap) (p : PBlock) : StrMap :=
  match p.strongText with
  | none => m
  | some st =>
    match p.nextText with
    | none => m
    | some nt =>
      if isValidTerm (cleanText st) (cleanText nt) then
        setKey m (cleanText st) (cleanText nt)
      else m

/-- `scrapeCourseraTerms` (main.go:119-135). -/
def scrapeCourseraTerms (doc : List PBlock) : StrMap :=
  doc.foldl courseraStep []

/-- An HTTP handler outcome: a JSON-object body with a status, or a
JSON error body with a status. -/
inductive ApiResult where
  | ok (status : Nat) (body : StrMap)
  | err (status : Nat) (message : GoStr)
deriving DecidableEq

/-- `getTerm` (main.go:196-213): exact, case-sensitive lookup; found
gives `200 {term: definition}`, absent gives `404 {"error": "term not
found"}`. -/
def getTerm (g : StrMap) (t : GoStr) : ApiResult :=
  match lookupS g t with
  | some d => .ok 200 [(t, d)]
  | none => .err 404 (String.toList "term not found")

/-- `searchTerms` (main.go:215-237): lowercase the query; empty gives
`400`, otherwise keep the entries whose lowercase term or lowercase
definition contains the query. -/
def searchTerms (g : StrMap) (q : GoStr) : ApiResult :=
  if toLowerGo q = [] then .err 400 (String.toList "search query is required")
  else .ok 200 (g.filter (fun p =>
    containsGo (toLowerGo p.1) (toLowerGo q) || containsGo (toLowerGo p.2) (toLowerGo q)))

/-- Externally visible steps of `main` after the scrape tasks join. -/
inductive RunEvent where
  | fatalExit
  | snapshotWrite
  | apiStart
deriving DecidableEq

/-- `main` after `wg.Wait()` (main.go:273-296): empty glossary is fatal
(`log.Fatal`, main.go:275-277); then JSON marshalling (fatal on error),
the snapshot file write (fatal on error), then the API server start.
`marshalOk`/`writeOk` model the environment-dependent outcomes of
`json.MarshalIndent` and `os.WriteFile`. -/
def mainAfterScrape (g : StrMap) (marshalOk writeOk : Bool) : List RunEvent :=
  if g.length = 0 then [.fatalExit]
  else if marshalOk = false then [.fatalExit]
  else if writeOk = false then [.snapshotWrite, .fatalExit]
  else [.snapshotWrite, .apiStart]

/-- Modelled from the spec (§4.3): the spec's stated stripping rule for
a raw extracted string, "strip trailing bracketed citation markers and
content after the first `[`".  Used only to compare the spec's words
with what the code does to definitions. -/
def specStripAfterBracket (s : GoStr) : GoStr :=
  trimSpace (cutAt ['['] s)

/-- The §4.2 / §3 entry invariant, as the spec states it: term length
at least 2, definition length at least 10, and the definition is not a
near-restatement of the term (lowercase definition contains the
lowercase comparison key while shorter than key length + 20). -/
def EntryOK (t d : GoStr) : Prop :=
  2 ≤ t.length ∧ 10 ≤ d.length ∧
    ¬(containsGo (toLowerGo d) (toLowerGo (termForComparison t)) = true ∧
      d.length < (termForComparison t).length + 20)

/-- Every entry present in a store satisfies the entry invariant. -/
def StoreValid (g : StrMap) : Prop := ∀ p ∈ g, EntryOK p.1 p.2

/-- The effect of one merge iteration on the value stored at one key:
absent inserts, present is replaced only by a strictly longer
definition. -/
def mergeStep (v : Option GoStr) (d : GoStr) : Option GoStr :=
  match v with
  | none => some d
  | some e => if e.length < d.length then some d else some e

/-- The definitions a pair list supplies for one key, in order. -/
def defsFor (ps : StrMap) (k : GoStr) : List GoStr :=
  (ps.filter (fun p => p.1 = k)).map Prod.snd

theorem lookupS_setKey (m : StrMap) (t d k : GoStr) :
    lookupS (setKey m t d) k = if k = t then some d else lookupS m k := by
  induction m with
  | nil =>
    by_cases h : k = t
    · subst h; simp [setKey, lookupS]
    · simp [setKey, lookupS, h, Ne.symm h]
  | cons p rest ih =>
    by_cases hp : p.1 = t
    · simp only [setKey, if_pos hp]
      by_cases hk : k = t
      · subst hk; simp [lookupS]
      · simp [lookupS, hk, Ne.symm hk, hp]
    · simp only [setKey, if_neg hp]
      by_cases hpk : p.1 = k
      · have hk : ¬(k = t) := fun h => hp (hpk.trans h)
        simp [lookupS, hpk, hk]
      · simp [lookupS, hpk, ih]

theorem mem_setKey (m : StrMap) (t d : GoStr) (q : GoStr × GoStr) :
    q ∈ setKey m t d → q = (t, d) ∨ q ∈ m := by
  induction m with
  | nil =>
    intro h
    simp only [setKey] at h
    exact Or.inl (by simpa using h)
  | cons p rest ih =>
    intro h
    by_cases hp : p.1 = t
    · simp only [setKey, if_pos hp] at h
      rcases List.mem_cons.mp h with h1 | h1
      · exact Or.inl h1
      · exact Or.inr (List.mem_cons.mpr (Or.inr h1))
    · simp only [setKey, if_neg hp] at h
      rcases List.mem_cons.mp h with h1 | h1
      · exact Or.inr (List.mem_cons.mpr (Or.inl h1))
      · rcases ih h1 with h2 | h2
        · exact Or.inl h2
        · exact Or.inr (List.mem_cons.mpr (Or.inr h2))

theorem lookupS_mergePairS (g : StrMap) (t d k : GoStr) :
    lookupS (mergePairS g t d) k =
      if k = t then mergeStep (lookupS g k) d else lookupS g k := by
  rcases h : lookupS g t with _ | e
  · have hm : mergePairS g t d = setKey g t d := by simp [mergePairS, h]
    rw [hm, lookupS_setKey]
    by_cases hk : k = t
    · subst hk; simp [h, mergeStep]
    · simp [hk]
  · by_cases hl : e.length < d.length
    · have hm : mergePairS g t d = setKey g t d := by simp [mergePairS, h, hl]
      rw [hm, lookupS_setKey]
      by_cases hk : k = t
      · subst hk; simp [h, mergeStep, hl]
      · simp [hk]
    · have hm : mergePairS g t d = g := by simp [mergePairS, h, hl]
      rw [hm]
      by_cases hk : k = t
      · subst hk; simp [h, mergeStep, hl]
      · simp [hk]

theorem lookupS_mergeInto (g : StrMap) (ps : StrMap) (k : GoStr) :
    lookupS (mergeInto g ps) k = (defsFor ps k).foldl mergeStep (lookupS g k) := by
  induction ps generalizing g with
  | nil => simp [mergeInto, defsFor]
  | cons p rest ih =>
    have hstep : mergeInto g (p :: rest) = mergeInto (mergePairS g p.1 p.2) rest := rfl
    rw [hstep, ih, lookupS_mergePairS]
    by_cases hk : k = p.1
    · have h1 : p.1 = k := hk.symm
      have h2 : defsFor (p :: rest) k = p.2 :: defsFor rest k := by
        simp [defsFor, List.filter_cons, h1]
      rw [if_pos hk, h2, List.foldl_cons]
    · have h1 : ¬(p.1 = k) := fun hh => hk hh.symm
      have h2 : defsFor (p :: rest) k = defsFor rest k := by
        simp [defsFor, List.filter_cons, h1]
      rw [if_neg hk, h2]

theorem defsFor_cons (p : GoStr × GoStr) (rest : StrMap) (k : GoStr) :
    defsFor (p :: rest) k =
      if p.1 = k then p.2 :: defsFor rest k else defsFor rest k := by
  by_cases hp : p.1 = k
  · simp [defsFor, List.filter_cons, hp]
  · simp [defsFor, List.filter_cons, hp]

theorem defsFor_nil_of_not_mem (ps : StrMap) (k : GoStr) :
    (∀ q ∈ ps, ¬(q.1 = k)) → defsFor ps k = [] := by
  induction ps with
  | nil => intro _; rfl
  | cons p rest ih =>
    intro h
    rw [defsFor_cons, if_neg (h p (List.mem_cons_self p rest))]
    exact ih (fun q hq => h q (List.mem_cons_of_mem _ hq))

theorem defsFor_nodup (ps : StrMap) (k : GoStr) :
    (ps.map Prod.fst).Nodup →
      defsFor ps k = [] ∨ ∃ d, defsFor ps k = [d] ∧ (k, d) ∈ ps := by
  induction ps with
  | nil => intro _; exact Or.inl rfl
  | cons p rest ih =>
    intro h
    rw [List.map_cons, List.nodup_cons] at h
    rw [defsFor_cons]
    by_cases hp : p.1 = k
    · rw [if_pos hp]
      have hrest : defsFor rest k = [] := by
        apply defsFor_nil_of_not_mem
        intro q hq hqk
        exact h.1 (List.mem_map.mpr ⟨q, hq, hqk.trans hp.symm⟩)
      rw [hrest]
      refine Or.inr ⟨p.2, rfl, List.mem_cons.mpr (Or.inl ?_)⟩
      rw [← hp]
    · rw [if_neg hp]
      rcases ih h.2 with h1 | ⟨d, h1, h2⟩
      · exact Or.inl h1
      · exact Or.inr ⟨d, h1, List.mem_cons_of_mem _ h2⟩

theorem mergeStep_comm (v : Option GoStr) (a b : GoStr)
    (h : a.length = b.length → a = b) :
    mergeStep (mergeStep v a) b = mergeStep (mergeStep v b) a := by
  rcases v with _ | e
  · show mergeStep (some a) b = mergeStep (some b) a
    simp only [mergeStep]
    rcases Nat.lt_trichotomy a.length b.length with hl | hl | hl
    · rw [if_pos hl, if_neg (Nat.lt_asymm hl)]
    · rw [h hl]
    · rw [if_neg (Nat.lt_asymm hl), if_pos hl]
  · by_cases hea : e.length < a.length <;> by_cases heb : e.length < b.length
    · simp only [mergeStep, hea, heb, if_true]
      rcases Nat.lt_trichotomy a.length b.length with hl | hl | hl
      · rw [if_pos hl, if_neg (Nat.lt_asymm hl)]
      · rw [h hl]
      · rw [if_neg (Nat.lt_asymm hl), if_pos hl]
    · have hba : b.length < a.length := lt_of_le_of_lt (Nat.le_of_not_lt heb) hea
      simp [mergeStep, hea, heb, Nat.lt_asymm hba]
    · have hab : a.length < b.length := lt_of_le_of_lt (Nat.le_of_not_lt hea) heb
      simp [mergeStep, hea, heb, Nat.lt_asymm hab]
    · simp [mergeStep, hea, heb]

theorem mergeStep_some (v : Option GoStr) (d : GoStr) :
    ∃ w, mergeStep v d = some w ∧ d.length ≤ w.length ∧
      ∀ e, v = some e → e.length ≤ w.length := by
  rcases v with _ | e
  · exact ⟨d, rfl, le_refl _, by simp⟩
  · by_cases hl : e.length < d.length
    · refine ⟨d, by simp [mergeStep, hl], le_refl _, ?_⟩
      intro e' he'
      cases he'
      exact Nat.le_of_lt hl
    · refine ⟨e, by simp [mergeStep, hl], Nat.le_of_not_lt hl, ?_⟩
      intro e' he'
      cases he'
      exact le_refl _

theorem foldl_mergeStep_mono (ds : List GoStr) (e : GoStr) :
    ∃ w, ds.foldl mergeStep (some e) = some w ∧ e.length ≤ w.length := by
  induction ds generalizing e with
  | nil => exact ⟨e, rfl, le_refl _⟩
  | cons d rest ih =>
    rw [List.foldl_cons]
    rcases mergeStep_some (some e) d with ⟨w0, hw0, _, hmono⟩
    rw [hw0]
    rcases ih w0 with ⟨w, hw, hle⟩
    exact ⟨w, hw, le_trans (hmono e rfl) hle⟩

theorem foldl_mergeStep_mem_le (ds : List GoStr) (v : Option GoStr) (d : GoStr) :
    d ∈ ds → ∃ w, ds.foldl mergeStep v = some w ∧ d.length ≤ w.length := by
  induction ds generalizing v with
  | nil => intro h; cases h
  | cons d0 rest ih =>
    intro hd
    rw [List.foldl_cons]
    rcases List.mem_cons.mp hd with h1 | h1
    · subst h1
      rcases mergeStep_some v d with ⟨w0, hw0, hdw0, _⟩
      rw [hw0]
      rcases foldl_mergeStep_mono rest w0 with ⟨w, hw, hle⟩
      exact ⟨w, hw, le_trans hdw0 hle⟩
    · exact ih _ h1

theorem mergeStep_noop (w d : GoStr) (h : d.length ≤ w.length) :
    mergeStep (some w) d = some w := by
  simp [mergeStep, Nat.not_lt.mpr h]

theorem foldl_mergeStep_fix (ds : List GoStr) (r : Option GoStr) :
    (∀ d ∈ ds, mergeStep r d = r) → ds.foldl mergeStep r = r := by
  induction ds with
  | nil => intro _; rfl
  | cons d rest ih =>
    intro h
    rw [List.foldl_cons, h d (List.mem_cons_self d rest)]
    exact ih (fun d' hd' => h d' (List.mem_cons_of_mem _ hd'))

theorem foldl_mergeStep_idem (ds : List GoStr) (v : Option GoStr) :
    ds.foldl mergeStep (ds.foldl mergeStep v) = ds.foldl mergeStep v := by
  apply foldl_mergeStep_fix
  intro d hd
  rcases foldl_mergeStep_mem_le ds v d hd with ⟨w, hw, hle⟩
  rw [hw]
  exact mergeStep_noop w d hle

theorem mergeInto_idem (g : StrMap) (ps : StrMap) :
    glossaryEquiv (mergeInto (mergeInto g ps) ps) (mergeInto g ps) := by
  intro k
  simp only [lookupS_mergeInto]
  exact foldl_mergeStep_idem (defsFor ps k) (lookupS g k)

theorem mergeInto_comm_of_nodup (g : StrMap) (A B : StrMap)
    (hA : (A.map Prod.fst).Nodup) (hB : (B.map Prod.fst).Nodup)
    (hTie : ∀ t dA dB, (t, dA) ∈ A → (t, dB) ∈ B → dA.length = dB.length → dA = dB) :
    glossaryEquiv (mergeInto (mergeInto g A) B) (mergeInto (mergeInto g B) A) := by
  intro k
  rw [lookupS_mergeInto, lookupS_mergeInto, lookupS_mergeInto, lookupS_mergeInto]
  rcases defsFor_nodup A k hA with hA1 | ⟨a, hA1, hA2⟩ <;>
    rcases defsFor_nodup B k hB with hB1 | ⟨b, hB1, hB2⟩
  · rw [hA1, hB1]
  · rw [hA1, hB1]; simp
  · rw [hA1, hB1]; simp
  · rw [hA1, hB1]
    exact mergeStep_comm (lookupS g k) a b (hTie k a b hA2 hB2)

theorem fields_cons_eq (c : Char) (t : GoStr) :
    fields (c :: t) =
      if goIsSpace c then fields t
      else
        match t, fields t with
        | [], _ => [[c]]
        | c2 :: _, r =>
          if goIsSpace c2 then [c] :: r
          else
            match r with
            | [] => [[c]]
            | w :: ws => (c :: w) :: ws := rfl

theorem fields_cons_space (c : Char) (t : GoStr) (hc : goIsSpace c = true) :
    fields (c :: t) = fields t := by
  simp [fields, hc]

theorem fields_singleton (c : Char) (hc : goIsSpace c = false) :
    fields [c] = [[c]] := by
  simp [fields, hc]

theorem fields_cons_cons_space (c c2 : Char) (t : GoStr)
    (hc : goIsSpace c = false) (hc2 : goIsSpace c2 = true) :
    fields (c :: c2 :: t) = [c] :: fields (c2 :: t) := by
  simp [fields, hc, hc2]

theorem fields_cons_cons_nonspace (c c2 : Char) (t : GoStr)
    (hc : goIsSpace c = false) (hc2 : goIsSpace c2 = false)
    (w : GoStr) (ws : List GoStr) (hft : fields (c2 :: t) = w :: ws) :
    fields (c :: c2 :: t) = (c :: w) :: ws := by
  rw [fields_cons_eq, if_neg (by simp [hc]), hft]
  simp [hc2]

theorem fields_sound (s : GoStr) :
    ∀ w ∈ fields s, w ≠ [] ∧ (∀ c ∈ w, goIsSpace c = false) ∧ (∀ c ∈ w, c ∈ s) := by
  induction s with
  | nil => intro w hw; cases hw
  | cons c t ih =>
    intro w hw
    by_cases hc : goIsSpace c
    · rw [fields_cons_space c t hc] at hw
      rcases ih w hw with ⟨h1, h2, h3⟩
      exact ⟨h1, h2, fun x hx => List.mem_cons_of_mem _ (h3 x hx)⟩
    · rw [Bool.not_eq_true] at hc
      cases t with
      | nil =>
        rw [fields_singleton c hc] at hw
        have hwc : w = [c] := by simpa using hw
        subst hwc
        refine ⟨by simp, ?_, ?_⟩
        · intro x hx
          have : x = c := by simpa using hx
          rw [this]; exact hc
        · intro x hx
          have : x = c := by simpa using hx
          rw [this]; exact List.mem_cons_self _ _
      | cons c2 t' =>
        by_cases hc2 : goIsSpace c2
        · rw [fields_cons_cons_space c c2 t' hc hc2] at hw
          rcases List.mem_cons.mp hw with h1 | h1
          · subst h1
            refine ⟨by simp, ?_, ?_⟩
            · intro x hx
              have : x = c := by simpa using hx
              rw [this]; exact hc
            · intro x hx
              have : x = c := by simpa using hx
              rw [this]; exact List.mem_cons_self _ _
          · rcases ih w h1 with ⟨h2, h3, h4⟩
            exact ⟨h2, h3, fun x hx => List.mem_cons_of_mem _ (h4 x hx)⟩
        · rw [Bool.not_eq_true] at hc2
          rcases hft : fields (c2 :: t') with _ | ⟨w0, ws⟩
          · have : fields (c :: c2 :: t') = [[c]] := by
              rw [fields_cons_eq, if_neg (by simp [hc]), hft]
              simp [hc2]
            rw [this] at hw
            have hwc : w = [c] := by simpa using hw
            subst hwc
            refine ⟨by simp, ?_, ?_⟩
            · intro x hx
              have : x = c := by simpa using hx
              rw [this]; exact hc
            · intro x hx
              have : x = c := by simpa using hx
              rw [this]; exact List.mem_cons_self _ _
          · rw [fields_cons_cons_nonspace c c2 t' hc hc2 w0 ws hft] at hw
            rcases List.mem_cons.mp hw with h1 | h1
            · subst h1
              rcases ih w0 (by rw [hft]; exact List.mem_cons_self _ _) with ⟨h2, h3, h4⟩
              refine ⟨by simp, ?_, ?_⟩
              · intro x hx
                rcases List.mem_cons.mp hx with h5 | h5
                · rw [h5]; exact hc
                · exact h3 x h5
              · intro x hx
                rcases List.mem_cons.mp hx with h5 | h5
                · rw [h5]; exact List.mem_cons_self _ _
                · exact List.mem_cons_of_mem _ (h4 x h5)
            · rcases ih w (by rw [hft]; exact List.mem_cons_of_mem _ h1) with ⟨h2, h3, h4⟩
              exact ⟨h2, h3, fun x hx => List.mem_cons_of_mem _ (h4 x hx)⟩

theorem joinSp_cons (w v : GoStr) (ws : List GoStr) :
    joinSp (w :: v :: ws) = w ++ ' ' :: joinSp (v :: ws) := rfl

theorem mem_joinSp (ws : List GoStr) (c : Char) :
    c ∈ joinSp ws → c = ' ' ∨ ∃ w ∈ ws, c ∈ w := by
  induction ws with
  | nil => intro h; cases h
  | cons w ws ih =>
    cases ws with
    | nil =>
      intro h
      exact Or.inr ⟨w, List.mem_cons_self _ _, by simpa [joinSp] using h⟩
    | cons v ws' =>
      intro h
      rw [joinSp_cons] at h
      rcases List.mem_append.mp h with h1 | h1
      · exact Or.inr ⟨w, List.mem_cons_self _ _, h1⟩
      · rcases List.mem_cons.mp h1 with h2 | h2
        · exact Or.inl h2
        · rcases ih h2 with h3 | ⟨w', hw', hc⟩
          · exact Or.inl h3
          · exact Or.inr ⟨w', List.mem_cons_of_mem _ hw', hc⟩

theorem fields_all_nonspace (w : GoStr) :
    w ≠ [] → (∀ c ∈ w, goIsSpace c = false) → fields w = [w] := by
  induction w with
  | nil => intro h; exact absurd rfl h
  | cons c w' ih =>
    intro _ hns
    have hc : goIsSpace c = false := hns c (List.mem_cons_self _ _)
    cases w' with
    | nil => exact fields_singleton c hc
    | cons c2 w'' =>
      have hc2 : goIsSpace c2 = false :=
        hns c2 (List.mem_cons_of_mem _ (List.mem_cons_self _ _))
      have ih' : fields (c2 :: w'') = [c2 :: w''] :=
        ih (by simp) (fun x hx => hns x (List.mem_cons_of_mem _ hx))
      exact fields_cons_cons_nonspace c c2 w'' hc hc2 _ _ ih'

theorem fields_word_append (w t : GoStr) :
    w ≠ [] → (∀ c ∈ w, goIsSpace c = false) →
      fields (w ++ ' ' :: t) = w :: fields t := by
  induction w with
  | nil => intro h; exact absurd rfl h
  | cons c w' ih =>
    intro _ hns
    have hc : goIsSpace c = false := hns c (List.mem_cons_self _ _)
    cases w' with
    | nil =>
      have hsp : goIsSpace ' ' = true := by decide
      show fields (c :: ' ' :: t) = [c] :: fields t
      rw [fields_cons_cons_space c ' ' t hc hsp, fields_cons_space ' ' t hsp]
    | cons c2 w'' =>
      have hc2 : goIsSpace c2 = false :=
        hns c2 (List.mem_cons_of_mem _ (List.mem_cons_self _ _))
      have ih' : fields (c2 :: w'' ++ ' ' :: t) = (c2 :: w'') :: fields t :=
        ih (by simp) (fun x hx => hns x (List.mem_cons_of_mem _ hx))
      show fields (c :: (c2 :: w'' ++ ' ' :: t)) = (c :: c2 :: w'') :: fields t
      exact fields_cons_cons_nonspace c c2 (w'' ++ ' ' :: t) hc hc2 _ _ ih'

theorem fields_joinSp (ws : List GoStr) :
    (∀ w ∈ ws, w ≠ [] ∧ ∀ c ∈ w, goIsSpace c = false) →
      fields (joinSp ws) = ws := by
  induction ws with
  | nil => intro _; rfl
  | cons w ws ih =>
    intro h
    cases ws with
    | nil =>
      rcases h w (List.mem_cons_self _ _) with ⟨h1, h2⟩
      show fields w = [w]
      exact fields_all_nonspace w h1 h2
    | cons v ws' =>
      rcases h w (List.mem_cons_self _ _) with ⟨h1, h2⟩
      rw [joinSp_cons, fields_word_append w _ h1 h2,
        ih (fun w' hw' => h w' (List.mem_cons_of_mem _ hw'))]

theorem cleanText_eq_of_printable (s : GoStr) (h : ∀ c ∈ s, goIsPrint c = true) :
    cleanText s = joinSp (fields s) := by
  unfold cleanText
  apply List.filter_eq_self.mpr
  intro c hc
  rcases mem_joinSp (fields s) c hc with h1 | ⟨w, hw, hcw⟩
  · rw [h1]; decide
  · exact h c ((fields_sound s w hw).2.2 c hcw)

theorem cleanText_printable (s : GoStr) :
    ∀ c ∈ cleanText s, goIsPrint c = true :=
  fun _c h => (List.mem_filter.mp h).2

theorem cleanText_idem_of_printable (s : GoStr) (h : ∀ c ∈ s, goIsPrint c = true) :
    cleanText (cleanText s) = cleanText s := by
  rw [cleanText_eq_of_printable s h]
  have hall : ∀ c ∈ joinSp (fields s), goIsPrint c = true := by
    intro c hc
    rcases mem_joinSp (fields s) c hc with h1 | ⟨w, hw, hcw⟩
    · rw [h1]; decide
    · exact h c ((fields_sound s w hw).2.2 c hcw)
  rw [cleanText_eq_of_printable _ hall,
    fields_joinSp (fields s) (fun w hw => ⟨(fields_sound s w hw).1, (fields_sound s w hw).2.1⟩)]

theorem cleanText_double_fix (s : GoStr) :
    cleanText (cleanText (cleanText s)) = cleanText (cleanText s) :=
  cleanText_idem_of_printable (cleanText s) (cleanText_printable s)

theorem cutAt_of_not_mem (l : GoStr) :
    '[' ∉ l → cutAt ['['] l = l := by
  induction l with
  | nil => intro _; rfl
  | cons c t ih =>
    intro h
    have hc : ('[' == c) = false := by
      rw [beq_eq_false_iff_ne]
      exact fun hh => h (hh ▸ List.mem_cons_self c t)
    simp [cutAt, prefixOfGo, hc, ih (fun hm => h (List.mem_cons_of_mem _ hm))]

theorem toLowerGo_eq_nil (q : GoStr) : toLowerGo q = [] ↔ q = [] := by
  unfold toLowerGo
  simp

theorem isValidTerm_iff (t d : GoStr) :
    isValidTerm t d = true ↔ EntryOK t d := by
  unfold isValidTerm EntryOK
  split
  · next hA =>
    simp only [Bool.or_eq_true, decide_eq_true_eq] at hA
    constructor
    · intro h
      exact absurd h (by decide)
    · rintro ⟨h2, h10, _⟩
      exfalso
      rcases hA with h | h <;> omega
  · next hA =>
    simp only [Bool.or_eq_true, decide_eq_true_eq, not_or, Nat.not_lt] at hA
    split
    · next hB =>
      simp only [Bool.and_eq_true, decide_eq_true_eq] at hB
      constructor
      · intro h
        exact absurd h (by decide)
      · rintro ⟨_, _, h3⟩
        exfalso
        exact h3 ⟨hB.1, hB.2⟩
    · next hB =>
      simp only [Bool.and_eq_true, decide_eq_true_eq, not_and, Nat.not_lt] at hB
      refine ⟨fun _ => ⟨hA.1, hA.2, ?_⟩, fun _ => rfl⟩
      rintro ⟨hc, hl⟩
      have := hB hc
      omega

theorem valid_setKey (m : StrMap) (t d : GoStr)
    (hm : ∀ p ∈ m, isValidTerm p.1 p.2 = true) (h : isValidTerm t d = true) :
    ∀ p ∈ setKey m t d, isValidTerm p.1 p.2 = true := by
  intro p hp
  rcases mem_setKey m t d p hp with h1 | h1
  · rw [h1]; exact h
  · exact hm p h1

theorem wikiFold_valid (dl : List DlChild) (st : StrMap × GoStr) :
    (∀ p ∈ st.1, isValidTerm p.1 p.2 = true) →
      ∀ p ∈ (dl.foldl wikiStep st).1, isValidTerm p.1 p.2 = true := by
  induction dl generalizing st with
  | nil => intro hm; exact hm
  | cons ch rest ih =>
    intro hm
    rw [List.foldl_cons]
    apply ih
    cases ch with
    | dt raw => exact hm
    | dd raw =>
      by_cases hcur : st.2.isEmpty
      · simpa [wikiStep, hcur] using hm
      · by_cases hv : isValidTerm st.2 (wikiCleanDef raw)
        · simp only [wikiStep, Bool.not_eq_true] at *
          simp only [hcur, hv, if_true, if_false, Bool.false_eq_true]
          exact valid_setKey st.1 st.2 _ hm hv
        · simpa [wikiStep, hcur, hv] using hm
    | other => exact hm

theorem wikiDocFold_valid (doc : List (List DlChild)) (m : StrMap) :
    (∀ p ∈ m, isValidTerm p.1 p.2 = true) →
      ∀ p ∈ doc.foldl (fun m dl => (dl.foldl wikiStep (m, [])).1) m,
        isValidTerm p.1 p.2 = true := by
  induction doc generalizing m with
  | nil => intro hm; exact hm
  | cons dl rest ih =>
    intro hm
    rw [List.foldl_cons]
    exact ih _ (wikiFold_valid dl (m, []) hm)

theorem scrapeWikipedia_valid (doc : List (List DlChild)) :
    ∀ p ∈ scrapeWikipediaTerms doc, isValidTerm p.1 p.2 = true :=
  wikiDocFold_valid doc [] (by intro p hp; cases hp)

theorem courseraFold_valid (doc : List PBlock) (m : StrMap) :
    (∀ p ∈ m, isValidTerm p.1 p.2 = true) →
      ∀ p ∈ doc.foldl courseraStep m, isValidTerm p.1 p.2 = true := by
  induction doc generalizing m with
  | nil => intro hm; exact hm
  | cons b rest ih =>
    intro hm
    rw [List.foldl_cons]
    apply ih
    rcases hst : b.strongText with _ | stx
    · simpa [courseraStep, hst] using hm
    · rcases hnt : b.nextText with _ | ntx
      · simpa [courseraStep, hst, hnt] using hm
      · by_cases hv : isValidTerm (cleanText stx) (cleanText ntx)
        · have : courseraStep m b = setKey m (cleanText stx) (cleanText ntx) := by
            simp [courseraStep, hst, hnt, hv]
          rw [this]
          exact valid_setKey m _ _ hm hv
        · simpa [courseraStep, hst, hnt, hv] using hm

theorem scrapeCoursera_valid (doc : List PBlock) :
    ∀ p ∈ scrapeCourseraTerms doc, isValidTerm p.1 p.2 = true :=
  courseraFold_valid doc [] (by intro p hp; cases hp)

theorem mergePairS_valid (g : StrMap) (t d : GoStr)
    (hg : ∀ p ∈ g, isValidTerm p.1 p.2 = true) (h : isValidTerm t d = true) :
    ∀ p ∈ mergePairS g t d, isValidTerm p.1 p.2 = true := by
  rcases hl : lookupS g t with _ | e
  · have hm : mergePairS g t d = setKey g t d := by simp [mergePairS, hl]
    rw [hm]
    exact valid_setKey g t d hg h
  · by_cases hlen : e.length < d.length
    · have hm : mergePairS g t d = setKey g t d := by simp [mergePairS, hl, hlen]
      rw [hm]
      exact valid_setKey g t d hg h
    · have hm : mergePairS g t d = g := by simp [mergePairS, hl, hlen]
      rw [hm]
      exact hg

theorem mergeInto_valid (g : StrMap) (ps : StrMap) :
    (∀ p ∈ g, isValidTerm p.1 p.2 = true) →
      (∀ p ∈ ps, isValidTerm p.1 p.2 = true) →
        ∀ p ∈ mergeInto g ps, isValidTerm p.1 p.2 = true := by
  induction ps generalizing g with
  | nil => intro hg _; exact hg
  | cons p rest ih =>
    intro hg hps
    rw [show mergeInto g (p :: rest) = mergeInto (mergePairS g p.1 p.2) rest from rfl]
    exact ih _ (mergePairS_valid g p.1 p.2 hg (hps p (List.mem_cons_self _ _)))
      (fun q hq => hps q (List.mem_cons_of_mem _ hq))

/-- C1: for every state of the shared store and every (term, def) pair
handed to the merge loop: an absent term is inserted; a present term's
stored definition is replaced exactly when the new definition is
strictly longer; equal lengths keep the existing entry; other keys are
untouched. -/
theorem merge_pair_spec (g : StrMap) (t d : GoStr) :
    (lookupS g t = none →
      ∀ k, lookupS (mergePairS g t d) k = if k = t then some d else lookupS g k)
    ∧ (∀ e, lookupS g t = some e →
        lookupS (mergePairS g t d) t =
          if e.length < d.length then some d else some e)
    ∧ (∀ e, lookupS g t = some e → e.length = d.length →
        lookupS (mergePairS g t d) t = some e) := by
  refine ⟨?_, ?_, ?_⟩
  · intro h k
    rw [lookupS_mergePairS]
    by_cases hk : k = t
    · subst hk
      rw [if_pos rfl, if_pos rfl, h]
      rfl
    · rw [if_neg hk, if_neg hk]
  · intro e he
    rw [lookupS_mergePairS, if_pos rfl, he]
    rfl
  · intro e he hlen
    rw [lookupS_mergePairS, if_pos rfl, he]
    show (if e.length < d.length then some d else some e) = some e
    rw [if_neg (by omega)]

theorem merge_pair_spec_witness :
    lookupS (mergePairS [] (String.toList "API") (String.toList "short def xx"))
        (String.toList "API") = some (String.toList "short def xx")
    ∧ lookupS (mergePairS [(String.toList "API", String.toList "0123456789")]
        (String.toList "API") (String.toList "0123456789abc")) (String.toList "API")
      = some (String.toList "0123456789abc")
    ∧ lookupS (mergePairS [(String.toList "API", String.toList "0123456789")]
        (String.toList "API") (String.toList "abcdefghij")) (String.toList "API")
      = some (String.toList "0123456789") := by
  refine ⟨?_, ?_, ?_⟩
  · rw [(merge_pair_spec [] (String.toList "API") (String.toList "short def xx")).1
      rfl (String.toList "API")]
    simp
  · rw [(merge_pair_spec _ _ _).2.1 (String.toList "0123456789") (by decide)]
    decide
  · rw [(merge_pair_spec _ _ _).2.2 (String.toList "0123456789") (by decide) (by decide)]

/-- C2 counterexample: merge is not commutative as claimed.  Two source
maps give the same term equal-length but different definitions; merging
them in the two orders yields stores that disagree at that term, so the
final Glossary depends on the arrival order. -/
theorem merge_not_commutative :
    lookupS (mergeInto (mergeInto [] [(['a', 'b'], List.replicate 10 'x')])
        [(['a', 'b'], List.replicate 10 'y')]) ['a', 'b'] ≠
      lookupS (mergeInto (mergeInto [] [(['a', 'b'], List.replicate 10 'y')])
        [(['a', 'b'], List.replicate 10 'x')]) ['a', 'b'] := by
  decide

/-- C2 (amended): merging the same pair set twice equals merging it
once; merging two source maps (unique keys each) in either order gives
the same Glossary provided no term receives equal-length differing
definitions from the two maps (the tie case is order-dependent); and
with definition lengths 15 and 40 for one term, the length-40
definition is stored regardless of arrival order. -/
theorem merge_idem_comm (g A B : StrMap) :
    glossaryEquiv (mergeInto (mergeInto g A) A) (mergeInto g A)
    ∧ ((A.map Prod.fst).Nodup → (B.map Prod.fst).Nodup →
        (∀ t dA dB, (t, dA) ∈ A → (t, dB) ∈ B → dA.length = dB.length → dA = dB) →
        glossaryEquiv (mergeInto (mergeInto g A) B) (mergeInto (mergeInto g B) A))
    ∧ (∀ t d1 d2 : GoStr, d1.length = 15 → d2.length = 40 →
        lookupS (mergeInto (mergeInto [] [(t, d1)]) [(t, d2)]) t = some d2
        ∧ lookupS (mergeInto (mergeInto [] [(t, d2)]) [(t, d1)]) t = some d2) := by
  refine ⟨mergeInto_idem g A, mergeInto_comm_of_nodup g A B, ?_⟩
  intro t d1 d2 h1 h2
  have hd1 : defsFor [(t, d1)] t = [d1] := by rw [defsFor_cons]; simp [defsFor]
  have hd2 : defsFor [(t, d2)] t = [d2] := by rw [defsFor_cons]; simp [defsFor]
  constructor
  · rw [lookupS_mergeInto, lookupS_mergeInto, hd1, hd2]
    show mergeStep (mergeStep (lookupS [] t) d1) d2 = some d2
    show mergeStep (mergeStep none d1) d2 = some d2
    rw [show mergeStep none d1 = some d1 from rfl]
    show (if d1.length < d2.length then some d2 else some d1) = some d2
    rw [if_pos (by omega)]
  · rw [lookupS_mergeInto, lookupS_mergeInto, hd1, hd2]
    show mergeStep (mergeStep (lookupS [] t) d2) d1 = some d2
    show mergeStep (mergeStep none d2) d1 = some d2
    rw [show mergeStep none d2 = some d2 from rfl]
    show (if d2.length < d1.length then some d1 else some d2) = some d2
    rw [if_neg (by omega)]

theorem merge_idem_comm_witness :
    glossaryEquiv
      (mergeInto (mergeInto [] [(String.toList "API", List.replicate 10 'x')])
        [(String.toList "API", List.replicate 12 'y')])
      (mergeInto (mergeInto [] [(String.toList "API", List.replicate 12 'y')])
        [(String.toList "API", List.replicate 10 'x')])
    ∧ lookupS (mergeInto (mergeInto [] [(String.toList "API", List.replicate 15 'p')])
        [(String.toList "API", List.replicate 40 'q')]) (String.toList "API")
      = some (List.replicate 40 'q') := by
  constructor
  · exact (merge_idem_comm [] [(String.toList "API", List.replicate 10 'x')]
      [(String.toList "API", List.replicate 12 'y')]).2.1 (by simp) (by simp)
      (by
        intro t dA dB hA hB hlen
        rw [List.mem_singleton] at hA hB
        exfalso
        have h1 : dA = List.replicate 10 'x' := congrArg Prod.snd hA
        have h2 : dB = List.replicate 12 'y' := congrArg Prod.snd hB
        rw [h1, h2] at hlen
        simp at hlen)
  · exact ((merge_idem_comm [] [] []).2.2 (String.toList "API")
      (List.replicate 15 'p') (List.replicate 40 'q') (by simp) (by simp)).1

/-- C3: `isValidTerm` accepts exactly when the term has length at least
2, the definition has length at least 10, and it is not the case that
the lowercase definition contains the lowercase comparison key (the
term cut at the first `" ("`) while the definition is shorter than the
key length plus 20. -/
theorem isValidTerm_characterization (t d : GoStr) :
    isValidTerm t d = true ↔
      (2 ≤ t.length ∧ 10 ≤ d.length ∧
        ¬(containsGo (toLowerGo d) (toLowerGo (termForComparison t)) = true ∧
          d.length < (termForComparison t).length + 20)) :=
  isValidTerm_iff t d

/-- C4 counterexample: the normalizer is not idempotent.  In
`"a \x01 b"` the control rune is not white space, so the first pass
keeps it as a word and only then deletes it as non-printable, leaving a
double space that a second pass collapses. -/
theorem cleanText_not_idempotent :
    cleanText (cleanText ['a', ' ', Char.ofNat 1, ' ', 'b']) ≠
      cleanText ['a', ' ', Char.ofNat 1, ' ', 'b'] := by
  decide

/-- C4 (amended): the normalizer is idempotent on inputs whose runes
are all printable; in general it stabilizes after two passes (the first
pass output is all printable, so a third pass changes nothing). -/
theorem cleanText_idem_amended :
    (∀ s : GoStr, (∀ c ∈ s, goIsPrint c = true) →
      cleanText (cleanText s) = cleanText s)
    ∧ (∀ s : GoStr, cleanText (cleanText (cleanText s)) = cleanText (cleanText s)) :=
  ⟨cleanText_idem_of_printable, cleanText_double_fix⟩

theorem cleanText_idem_amended_witness :
    cleanText (cleanText (String.toList "hello   world")) =
      cleanText (String.toList "hello   world") :=
  cleanText_idem_amended.1 (String.toList "hello   world") (by decide)

/-- C5 counterexample: the structured-list extractor does not strip
content after the first `'['` from the definition.  For the definition
`"A finite procedure [1] for computing answers"` the emitted entry
keeps `"1 for computing answers"` (only the bracket runes are deleted),
which differs from the spec's strip-after-bracket rule. -/
theorem wiki_definition_keeps_bracket_content :
    scrapeWikipediaTerms [[DlChild.dt (String.toList "Algorithm"),
        DlChild.dd (String.toList "A finite procedure [1] for computing answers")]]
      = [(String.toList "Algorithm",
          String.toList "A finite procedure 1 for computing answers")]
    ∧ String.toList "A finite procedure 1 for computing answers" ≠
        specStripAfterBracket
          (cleanText (String.toList "A finite procedure [1] for computing answers")) := by
  constructor
  · decide
  · decide

/-- C5 (amended): before validation the extractor strips the content
from the first `'['` onward from the candidate term only; from the
candidate definition it deletes the `'['` and `']'` runes themselves,
keeping the content between and after them (the subsequent split at
`'['` is a no-op because no `'['` remains). -/
theorem wiki_bracket_stripping (rawT rawD : GoStr) :
    ((wikiCleanTerm rawT).isEmpty = false →
      isValidTerm (wikiCleanTerm rawT) (wikiCleanDef rawD) = true →
      scrapeWikipediaTerms [[DlChild.dt rawT, DlChild.dd rawD]]
        = [(wikiCleanTerm rawT, wikiCleanDef rawD)])
    ∧ wikiCleanTerm rawT = trimSpace (cutAt ['['] (cleanText rawT))
    ∧ wikiCleanDef rawD =
        trimSpace ((cleanText rawD).filter (fun c => !(c == '[' || c == ']'))) := by
  refine ⟨?_, rfl, ?_⟩
  · intro hne hv
    simp [scrapeWikipediaTerms, wikiStep, hne, hv, setKey]
  · unfold wikiCleanDef
    congr 1
    apply cutAt_of_not_mem
    intro hmem
    simpa using (List.mem_filter.mp hmem).2

theorem wiki_bracket_stripping_witness :
    scrapeWikipediaTerms [[DlChild.dt (String.toList "Hash table"),
        DlChild.dd (String.toList "A data structure mapping keys to values by hashing")]]
      = [(wikiCleanTerm (String.toList "Hash table"),
          wikiCleanDef (String.toList "A data structure mapping keys to values by hashing"))] :=
  (wiki_bracket_stripping (String.toList "Hash table")
    (String.toList "A data structure mapping keys to values by hashing")).1
    (by decide) (by decide)

/-- C6: every entry present in the shared store after any sequence of
merges of extractor outputs satisfies the entry invariant: term length
at least 2, definition length at least 10, and the definition is not a
near-restatement of the term; this holds because both extractors emit
only pairs accepted by `isValidTerm` and the merge loop inserts only
such pairs. -/
theorem glossary_invariant (srcs : List StrMap)
    (h : ∀ m ∈ srcs, (∃ doc, m = scrapeWikipediaTerms doc) ∨
      ∃ doc, m = scrapeCourseraTerms doc) :
    ∀ n, StoreValid (List.foldl mergeInto [] (srcs.take n)) := by
  have hmain : ∀ (l : List StrMap),
      (∀ m ∈ l, (∃ doc, m = scrapeWikipediaTerms doc) ∨
        ∃ doc, m = scrapeCourseraTerms doc) →
      ∀ (g : StrMap), (∀ p ∈ g, isValidTerm p.1 p.2 = true) →
      ∀ p ∈ List.foldl mergeInto g l, isValidTerm p.1 p.2 = true := by
    intro l
    induction l with
    | nil => intro _ g hg; exact hg
    | cons m rest ih =>
      intro hl g hg
      rw [List.foldl_cons]
      apply ih (fun m' hm' => hl m' (List.mem_cons_of_mem _ hm'))
      apply mergeInto_valid g m hg
      rcases hl m (List.mem_cons_self _ _) with ⟨doc, hdoc⟩ | ⟨doc, hdoc⟩
      · rw [hdoc]; exact scrapeWikipedia_valid doc
      · rw [hdoc]; exact scrapeCoursera_valid doc
  intro n
  show ∀ p ∈ List.foldl mergeInto [] (srcs.take n), EntryOK p.1 p.2
  intro p hp
  have hv := hmain (srcs.take n)
    (fun m hm => h m ((List.take_sublist n srcs).subset hm)) []
    (by intro q hq; cases hq) p hp
  exact (isValidTerm_iff p.1 p.2).mp hv

theorem glossary_invariant_witness :
    StoreValid (List.foldl mergeInto []
      (List.take 1 [scrapeWikipediaTerms [[DlChild.dt (String.toList "Algorithm"),
        DlChild.dd (String.toList
          "A finite sequence of well-defined steps for solving a problem")]]])) :=
  glossary_invariant _
    (by
      intro m hm
      rw [List.mem_singleton] at hm
      exact Or.inl ⟨_, hm⟩) 1

/-- C7: after the scrape tasks join, an empty Glossary is fatal before
any snapshot write and before the API starts; a non-empty Glossary
proceeds to the snapshot write and then the API start (given the
marshal and file write succeed). -/
theorem empty_glossary_fatal (g : StrMap) (marshalOk writeOk : Bool) :
    (g.length = 0 →
      mainAfterScrape g marshalOk writeOk = [RunEvent.fatalExit]
      ∧ RunEvent.snapshotWrite ∉ mainAfterScrape g marshalOk writeOk
      ∧ RunEvent.apiStart ∉ mainAfterScrape g marshalOk writeOk)
    ∧ (0 < g.length →
        mainAfterScrape g true true = [RunEvent.snapshotWrite, RunEvent.apiStart]) := by
  constructor
  · intro h
    have he : mainAfterScrape g marshalOk writeOk = [RunEvent.fatalExit] := by
      simp [mainAfterScrape, h]
    refine ⟨he, ?_, ?_⟩ <;> rw [he] <;> simp
  · intro h
    have hne : ¬(g.length = 0) := by omega
    simp [mainAfterScrape, hne]

theorem empty_glossary_fatal_witness :
    mainAfterScrape [] true true = [RunEvent.fatalExit]
    ∧ mainAfterScrape [(String.toList "API", String.toList "An interface")] true true
        = [RunEvent.snapshotWrite, RunEvent.apiStart] :=
  ⟨((empty_glossary_fatal [] true true).1 rfl).1,
   (empty_glossary_fatal [(String.toList "API", String.toList "An interface")]
      true true).2 (by decide)⟩

/-- C8: the search handler returns the 400 "search query is required"
error exactly when the query is empty (or absent, which reads as the
empty string); for a non-empty query it returns 200 with exactly the
entries whose lowercase term or lowercase definition contains the
lowercase query. -/
theorem search_spec (g : StrMap) (q : GoStr) :
    (searchTerms g q = ApiResult.err 400 (String.toList "search query is required")
      ↔ q = [])
    ∧ (∀ m, searchTerms g q = ApiResult.ok 200 m →
        ∀ t d, (t, d) ∈ m ↔
          ((t, d) ∈ g ∧ (containsGo (toLowerGo t) (toLowerGo q)
            || containsGo (toLowerGo d) (toLowerGo q)) = true)) := by
  constructor
  · constructor
    · intro h
      by_cases hq : toLowerGo q = []
      · exact (toLowerGo_eq_nil q).mp hq
      · rw [searchTerms, if_neg hq] at h
        exact ApiResult.noConfusion h
    · intro h
      subst h
      rw [searchTerms, if_pos (show toLowerGo [] = [] from rfl)]
  · intro m hm t d
    by_cases hq : toLowerGo q = []
    · rw [searchTerms, if_pos hq] at hm
      exact ApiResult.noConfusion hm
    · rw [searchTerms, if_neg hq] at hm
      injection hm with _ hb
      subst hb
      exact List.mem_filter

theorem search_spec_witness :
    searchTerms [(String.toList "API", String.toList "An interface for programs")] []
      = ApiResult.err 400 (String.toList "search query is required")
    ∧ (String.toList "API", String.toList "An interface for programs") ∈
        ([(String.toList "API", String.toList "An interface for programs")].filter
          (fun p => containsGo (toLowerGo p.1) (toLowerGo (String.toList "interface"))
            || containsGo (toLowerGo p.2) (toLowerGo (String.toList "interface")))) := by
  constructor
  · exact (search_spec [(String.toList "API", String.toList "An interface for programs")]
      []).1.mpr rfl
  · exact ((search_spec [(String.toList "API", String.toList "An interface for programs")]
      (String.toList "interface")).2
      ([(String.toList "API", String.toList "An interface for programs")].filter
        (fun p => containsGo (toLowerGo p.1) (toLowerGo (String.toList "interface"))
          || containsGo (toLowerGo p.2) (toLowerGo (String.toList "interface"))))
      (by decide) (String.toList "API")
      (String.toList "An interface for programs")).mpr (by decide)

/-- C9: get-by-key is an exact, case-sensitive lookup; a present term
gives 200 with the single-entry object, an absent term gives the
distinct 404 "term not found" error, never an empty-definition
entry. -/
theorem get_term_spec (g : StrMap) (t : GoStr) :
    (∀ d, lookupS g t = some d → getTerm g t = ApiResult.ok 200 [(t, d)])
    ∧ (lookupS g t = none →
        getTerm g t = ApiResult.err 404 (String.toList "term not found")) := by
  constructor
  · intro d h
    simp [getTerm, h]
  · intro h
    simp [getTerm, h]

theorem get_term_spec_witness :
    getTerm [(String.toList "API", String.toList "An interface")] (String.toList "API")
      = ApiResult.ok 200 [(String.toList "API", String.toList "An interface")]
    ∧ getTerm [(String.toList "API", String.toList "An interface")] (String.toList "api")
      = ApiResult.err 404 (String.toList "term not found") :=
  ⟨(get_term_spec [(String.toList "API", String.toList "An interface")]
      (String.toList "API")).1 (String.toList "An interface") (by decide),
   (get_term_spec [(String.toList "API", String.toList "An interface")]
      (String.toList "api")).2 (by decide)⟩

/-- C10: within one source's extraction a later validated pair with the
same term key unconditionally overwrites the earlier one in the
source's result map, whatever the lengths; the longer-definition rule
applies only in the merge into the shared store, which keeps the stored
entry when the incoming definition is not strictly longer. -/
theorem source_overwrite_vs_merge (rawT raw1 raw2 : GoStr) :
    ((wikiCleanTerm rawT).isEmpty = false →
      isValidTerm (wikiCleanTerm rawT) (wikiCleanDef raw1) = true →
      isValidTerm (wikiCleanTerm rawT) (wikiCleanDef raw2) = true →
      lookupS (scrapeWikipediaTerms [[DlChild.dt rawT, DlChild.dd raw1, DlChild.dd raw2]])
          (wikiCleanTerm rawT) = some (wikiCleanDef raw2))
    ∧ (∀ sT n1 n2, isValidTerm (cleanText sT) (cleanText n1) = true →
        isValidTerm (cleanText sT) (cleanText n2) = true →
        lookupS (scrapeCourseraTerms [⟨some sT, some n1⟩, ⟨some sT, some n2⟩])
          (cleanText sT) = some (cleanText n2))
    ∧ (∀ g t d e, lookupS g t = some e → ¬(e.length < d.length) →
        mergePairS g t d = g) := by
  refine ⟨?_, ?_, ?_⟩
  · intro hne hv1 hv2
    simp [scrapeWikipediaTerms, wikiStep, hne, hv1, hv2, setKey, lookupS]
  · intro sT n1 n2 hv1 hv2
    simp [scrapeCourseraTerms, courseraStep, hv1, hv2, setKey, lookupS]
  · intro g t d e he hlen
    simp [mergePairS, he, hlen]

theorem source_overwrite_vs_merge_witness :
    lookupS (scrapeWikipediaTerms [[DlChild.dt (String.toList "Binary tree"),
        DlChild.dd (String.toList
          "A tree data structure in which each node has at most two children"),
        DlChild.dd (String.toList "Tree of degree two at most")]])
      (wikiCleanTerm (String.toList "Binary tree"))
      = some (wikiCleanDef (String.toList "Tree of degree two at most"))
    ∧ mergePairS [(String.toList "API", List.replicate 12 'x')]
        (String.toList "API") (List.replicate 10 'y')
      = [(String.toList "API", List.replicate 12 'x')] := by
  constructor
  · exact (source_overwrite_vs_merge (String.toList "Binary tree")
      (String.toList "A tree data structure in which each node has at most two children")
      (String.toList "Tree of degree two at most")).1 (by decide) (by decide) (by decide)
  · exact (source_overwrite_vs_merge [] [] []).2.2
      [(String.toList "API", List.replicate 12 'x')] (String.toList "API")
      (List.replicate 10 'y') (List.replicate 12 'x') (by decide) (by decide)
